import Mathlib

/-!
A verification development for the `dwh-migration-tools` batch SQL translation
client.  The Python sources are shallowly embedded as executable Lean
definitions:

* `MacroProcessor` models
  `dwh_migration_client/processors/macro_processor.py`.  Text, tokens,
  replacements and file paths are `List Char`.  Python dicts are modelled as
  insertion-ordered association lists where assigning to an existing key
  overwrites its value in place (`dictInsert`), exactly the CPython dict
  semantics the code relies on.  The compiled regex
  `re.compile("|".join(reg_pattern_map.keys()))` is an alternation of
  `re.escape`d literals; since `re.escape` is injective and an escaped literal
  matches exactly its literal text, the pattern's behaviour is embedded
  directly on the unescaped literals: at each scan position the first key (in
  dict insertion order) that literally matches at the head of the remaining
  text wins, which is Python's ordered-alternation semantics.  When the dict
  is empty the joined pattern is the empty pattern, which matches the empty
  string at the current position, and the replacement callback's dict lookup
  of the matched literal raises `KeyError`; this is modelled by `Except`.

* `ProcessorPipeline` models `dwh_migration_client/processors/pipeline.py`
  (the thread-pool variant) at the level of an in-memory file tree, and
  `OldPipeline` models `dwh_migration_client/processor/pipeline.py` (the
  sequential variant).  A processor chain is a list of pairs of
  (possibly failing) text transformers.

* `BatchSqlTranslator` models the polling loop of
  `dwh_migration_client/batch_sql_translator.py` under an idealized clock in
  which each loop iteration advances the wall clock by exactly the five
  seconds of `time.sleep(5)`.
-/

abbrev Str := List Char

/-- Converts a string literal to the `List Char` representation used by the model. -/
def toL (s : String) : Str := s.data

/-- Equality of modelled Python outcomes is decidable, so concrete runs can
be checked by evaluation. -/
instance : DecidableEq (Except Unit Str) := fun a b =>
  match a, b with
  | Except.ok x, Except.ok y =>
    if h : x = y then isTrue (by rw [h]) else
      isFalse (fun hc => h (by cases hc; rfl))
  | Except.error x, Except.error y => isTrue (by cases x; cases y; rfl)
  | Except.ok _, Except.error _ => isFalse (fun hc => Except.noConfusion hc)
  | Except.error _, Except.ok _ => isFalse (fun hc => Except.noConfusion hc)

/-- Matching of a `*` wildcard: the rest of the pattern (`m`) may match at
the current position or after skipping any number of characters. -/
def globStar (m : Str → Bool) : Str → Bool
  | [] => m []
  | c :: cs => m (c :: cs) || globStar m cs

/-- Model of POSIX `fnmatch.fnmatch(name, pattern)` for patterns built from
literal characters and the wildcards `*` (any run of characters, including
`/` and `.`) and `?` (any single character); bracket expressions are not used
by any configuration considered here.  Matching is anchored at both ends, as
`fnmatch` is. -/
def fnmatch (name pat : Str) : Bool :=
  match pat with
  | [] => name.isEmpty
  | p :: ps =>
    if p = '*' then globStar (fun n => fnmatch n ps) name
    else
      match name with
      | [] => false
      | c :: cs =>
        if p = '?' then fnmatch cs ps
        else p = c && fnmatch cs ps

/-- Python dict assignment `d[k] = v` on an insertion-ordered association
list: if the key is present its value is overwritten in place, otherwise the
pair is appended. -/
def dictInsert (d : List (Str × Str)) (k v : Str) : List (Str × Str) :=
  if d.any (fun kv => decide (kv.1 = k)) then
    d.map (fun kv => if kv.1 = k then (k, v) else kv)
  else d ++ [(k, v)]

/-- Builds a Python dict from a list of key/value pairs taken in order,
starting from a given accumulator (models `dict(iterable)` and repeated
`d[k] = v` assignments). -/
def buildDictFrom (acc : List (Str × Str)) (l : List (Str × Str)) : List (Str × Str) :=
  l.foldl (fun d kv => dictInsert d kv.1 kv.2) acc

/-- Builds a Python dict from a list of key/value pairs taken in order. -/
def buildDict (l : List (Str × Str)) : List (Str × Str) := buildDictFrom [] l

/-- Dict lookup `d[k]`, returning `none` where Python raises `KeyError`. -/
def lookupTok (d : List (Str × Str)) (k : Str) : Option Str :=
  (d.find? (fun kv => decide (kv.1 = k))).map (fun kv => kv.2)

/-- Tests whether an escaped literal alternative matches at the head of the
text (an escaped literal regex matches exactly its literal text). -/
def litMatch : Str → Str → Bool
  | [], _ => true
  | _ :: _, [] => false
  | k :: ks, c :: cs => k = c && litMatch ks cs

/-- The first alternative of the compiled alternation (dict insertion order)
that matches at the head of the text, together with its dict value. -/
def findTok (keys : List (Str × Str)) (text : Str) : Option (Str × Str) :=
  keys.find? (fun kv => litMatch kv.1 text)

/-- The text matched by `re.compile("|".join(keys))` at the current scan
position, if any.  When `keys` is empty the joined pattern is the empty
pattern, which matches the empty string at every position. -/
def reMatch (keys : List (Str × Str)) (text : Str) : Option Str :=
  if keys.isEmpty then some [] else (findTok keys text).map (fun kv => kv.1)

/-- Model of `patterns.sub(lambda m: reg_pattern_map[re.escape(m.group(0))], text)`
for the single alternation pattern compiled from the dict `keys`.  The scan
moves left to right; at each position the first matching alternative is
replaced by the dict value of the matched literal (`Except.error` models the
`KeyError` raised when the matched literal is not a key, which happens
exactly when the dict is empty and the joined pattern is the empty pattern).
After a zero-width match the following character is copied verbatim, per
Python 3.7+ `re.sub` semantics. -/
def reSub (keys : List (Str × Str)) (text : Str) : Except Unit Str :=
  match hm : reMatch keys text with
  | none =>
    match text with
    | [] => Except.ok []
    | c :: rest => (reSub keys rest).map (fun s => c :: s)
  | some tok =>
    match lookupTok keys tok with
    | none => Except.error ()
    | some rep =>
      if h : tok = [] then
        match text with
        | [] => Except.ok rep
        | c :: rest => (reSub keys rest).map (fun s => rep ++ c :: s)
      else (reSub keys (text.drop tok.length)).map (fun s => rep ++ s)
termination_by text.length
decreasing_by
all_goals first
  | (simp only [List.length_cons]; omega)
  | (have hpre : litMatch tok text = true := by
       unfold reMatch at hm
       split at hm
       · exact absurd (Option.some.inj hm).symm h
       · cases hfind : findTok keys text with
         | none => rw [hfind] at hm; simp at hm
         | some kv =>
           rw [hfind] at hm
           simp only [Option.map_some'] at hm
           cases hm
           unfold findTok at hfind
           have h3 := List.find?_some hfind
           simpa using h3
     have hlen : ∀ (a b : Str), litMatch a b = true → a.length ≤ b.length := by
       intro a
       induction a with
       | nil => intro b _; simp
       | cons x xs ih =>
         intro b hb
         cases b with
         | nil => simp [litMatch] at hb
         | cons c cs =>
           simp only [litMatch, Bool.and_eq_true] at hb
           have := ih cs hb.2
           simp only [List.length_cons]
           omega
     have h1 := hlen tok text hpre
     have h2 : 0 < tok.length := by
       cases tok with
       | nil => exact absurd rfl h
       | cons a as => simp
     simp only [List.length_drop]
     omega)

abbrev MacroMaps := List (Str × List (Str × Str))

namespace MacroProcessor

/-- Model of `MacroProcessor._get_reversed_maps`: for every glob entry the
inner token map is reversed by building `dict((v, k) for k, v in macro_map.items())`,
so a replacement that is shared by several tokens of one glob keeps the
last-inserted token. -/
def getReversedMaps (maps : MacroMaps) : MacroMaps :=
  maps.map (fun e => (e.1, buildDict (e.2.map (fun kv => (kv.2, kv.1)))))

/-- Model of `MacroProcessor._get_all_regex_pattern_mapping`: every glob entry
whose pattern `fnmatch`es the relative path has its token map merged into the
accumulator dict by plain dict assignment (`reg_pattern_map[re.escape(key)] = value`).
The compiled alternation itself is represented by the returned dict, whose
key order is the pattern's alternative order (see `reSub`); keys are kept
unescaped because `re.escape` is injective and escaped literals match
exactly their literal text. -/
def getAllRegexPatternMapping (maps : MacroMaps) (relativePath : Str)
    (useReversedMap : Bool) : List (Str × Str) :=
  let substMaps := if useReversedMap then getReversedMaps maps else maps
  substMaps.foldl
    (fun acc e => if fnmatch relativePath e.1 then buildDictFrom acc e.2 else acc) []

/-- Model of `MacroProcessor.preprocess`: expands the macros appearing in the
text by a single alternation-substitution pass over the merged map for the
path. -/
def preprocess (maps : MacroMaps) (relativePath text : Str) : Except Unit Str :=
  reSub (getAllRegexPatternMapping maps relativePath false) text

/-- Model of `MacroProcessor.postprocess`: reverts the macro substitution by
the same pass over the merged reversed map for the path. -/
def postprocess (maps : MacroMaps) (relativePath text : Str) : Except Unit Str :=
  reSub (getAllRegexPatternMapping maps relativePath true) text

end MacroProcessor

/-- The (token, replacement) pairs declared under glob patterns matching the
path, in exactly the order the merging loop of
`_get_all_regex_pattern_mapping` inserts them. -/
def matchedDecls (maps : MacroMaps) (relativePath : Str) : List (Str × Str) :=
  ((maps.filter (fun e => fnmatch relativePath e.1)).map (fun e => e.2)).flatten

/-- The last value assigned to a key by iterating the pairs in order (the
value a sequence of Python dict assignments leaves behind). -/
def lastVal (l : List (Str × Str)) (k : Str) : Option Str :=
  l.foldl (fun acc kv => if kv.1 = k then some kv.2 else acc) none

/-- A processor of the pipeline: the `Processor` abstract base class, a pair
of text transformers indexed by the relative path.  `Except` propagates the
Python exceptions a transformer may raise. -/
structure Processor where
  pre : Str → Str → Except Unit Str
  post : Str → Str → Except Unit Str

/-- The `MacroProcessor` instance as a pipeline processor. -/
def macroProcessor (maps : MacroMaps) : Processor :=
  ⟨MacroProcessor.preprocess maps, MacroProcessor.postprocess maps⟩

/-- One file of the input tree: its path relative to the input root (posix
form), whether it is a regular file, and its byte content. -/
structure FileEntry where
  path : Str
  regular : Bool
  content : Str
deriving DecidableEq

/-- The final component of a posix path (`pathlib.PurePath.name`). -/
def baseName (p : Str) : Str :=
  p.foldl (fun acc c => if c = '/' then [] else acc ++ [c]) []

/-- The index of the last dot of a name, if any. -/
def lastDotIdx (l : Str) : Option Nat :=
  (l.reverse.findIdx? (fun c => c == '.')).map (fun j => l.length - 1 - j)

/-- The file extension of the final path component
(`pathlib.PurePath.suffix`): the part of the name from its last dot, provided
that dot is neither the leading nor the trailing character. -/
def suffixOf (p : Str) : Str :=
  let n := baseName p
  match lastDotIdx n with
  | some i => if 0 < i ∧ i < n.length - 1 then n.drop i else []
  | none => []

namespace ProcessorPipeline

/-- Model of `ProcessorPipeline.is_ignored`: not a regular file, or the file
name begins with a dot. -/
def is_ignored (e : FileEntry) : Bool :=
  !e.regular || (match baseName e.path with | [] => false | c :: _ => c = '.')

/-- Model of `ProcessorPipeline.is_processable`: not ignored and the
lower-cased extension is none of `.zip`, `.json`, `.csv`.  In
`processors/pipeline.py` this method is defined but never called by
`_process`. -/
def is_processable (e : FileEntry) : Bool :=
  if is_ignored e then false
  else !([toL ".zip", toL ".json", toL ".csv"].contains ((suffixOf e.path).map Char.toLower))

/-- The files `_process` dispatches to the worker pool: every file under the
input root that is not ignored (note: `is_processable` is not consulted). -/
def dispatched (entries : List FileEntry) : List FileEntry :=
  entries.filter (fun e => !is_ignored e)

/-- Model of the loop body of `_preprocess_file`: the text is threaded
through each processor's `preprocess` in chain order. -/
def preprocessText (chain : List Processor) (rel text : Str) : Except Unit Str :=
  chain.foldl (fun acc p => acc.bind (p.pre rel)) (Except.ok text)

/-- Model of `_preprocess_file` on one dispatched file: read the file content
and thread it through the chain (the result is only uploaded by a
storage-backed processor, never written locally). -/
def preprocessFile (chain : List Processor) (e : FileEntry) : Except Unit Str :=
  preprocessText chain e.path e.content

/-- Model of the loop of `_postprocess_file`: starting from the empty string,
the text is threaded through each processor's `postprocess` in reverse chain
order. -/
def postprocessText (chain : List Processor) (rel : Str) : Except Unit Str :=
  chain.reverse.foldl (fun acc p => acc.bind (p.post rel)) (Except.ok [])

/-- The output files a postprocess pass writes: for every dispatched file
whose own chain run succeeds, the final text is written at the same relative
path under the output root (a failing file writes nothing; file tasks are
independent, so other files' writes still happen). -/
def postprocessWrites (chain : List Processor) (entries : List FileEntry) :
    List (Str × Str) :=
  (dispatched entries).filterMap
    (fun e => (postprocessText chain e.path).toOption.map (fun t => (e.path, t)))

/-- Model of the join loop of `_process`
(`for future in as_completed(futures): future.result()`), applied to the
per-file task outcomes in completion order: the first raised error is
re-raised; the pass returns normally only when every dispatched task
completed without raising. -/
def joinFutures {E : Type} : List (Except E Unit) → Except E Unit
  | [] => Except.ok ()
  | Except.ok () :: rest => joinFutures rest
  | Except.error e :: _ => Except.error e

end ProcessorPipeline

namespace OldPipeline

/-- Model of the sequential `processor/pipeline.py` `is_ignored`. -/
def is_ignored (e : FileEntry) : Bool :=
  !e.regular || (match baseName e.path with | [] => false | c :: _ => c = '.')

/-- Model of the sequential `processor/pipeline.py` `is_processable`:
`name.lower().endswith((".zip", ".json", ".csv"))` excludes the file from the
chain. -/
def is_processable (e : FileEntry) : Bool :=
  if is_ignored e then false
  else !([toL ".zip", toL ".json", toL ".csv"].any
    (fun s => s.isSuffixOf ((baseName e.path).map Char.toLower)))

/-- Model of the chain loop of the sequential `preprocess_file`. -/
def preprocess_file (chain : List Processor) (rel text : Str) : Except Unit Str :=
  chain.foldl (fun acc p => acc.bind (p.pre rel)) (Except.ok text)

/-- Model of the chain loop of the sequential `postprocess_file`: the text is
read from the downloaded file and threaded through the processors in reverse
chain order. -/
def postprocess_file (chain : List Processor) (rel text : Str) : Except Unit Str :=
  chain.reverse.foldl (fun acc p => acc.bind (p.post rel)) (Except.ok text)

/-- Model of the sequential `__process` walk: ignored files are skipped,
non-processable files are copied verbatim (`shutil.copy`), processable files
are run through the chain; the first raised error aborts the walk. -/
def process (chain : List Processor) (revertExpansion : Bool) :
    List FileEntry → Except Unit (List (Str × Str))
  | [] => Except.ok []
  | e :: rest =>
    if is_ignored e then process chain revertExpansion rest
    else if !is_processable e then
      (process chain revertExpansion rest).map (fun out => (e.path, e.content) :: out)
    else
      match (if !revertExpansion then preprocess_file chain e.path e.content
             else postprocess_file chain e.path e.content) with
      | Except.error err => Except.error err
      | Except.ok t =>
        (process chain revertExpansion rest).map (fun out => (e.path, t) :: out)

end OldPipeline

namespace BatchSqlTranslator

/-- The remote migration workflow states relevant to the polling loop. -/
inductive MigrationState where
  | unspecified
  | pending
  | running
  | paused
  | completed
deriving DecidableEq

/-- Model of `BatchSqlTranslator._JOB_FINISHED_STATES`. -/
def jobFinishedStates : List MigrationState := [.completed, .paused]

/-- Membership in `_JOB_FINISHED_STATES`. -/
def isJobFinished (s : MigrationState) : Bool := jobFinishedStates.contains s

/-- How `_wait_until_job_finished` ends: either it returns to the caller, or
it calls `sys.exit()` (which terminates the process with exit code 0). -/
inductive WaitOutcome where
  | returned
  | exited (exitCode : Nat)
deriving DecidableEq

/-- Model of the polling loop of `_wait_until_job_finished` under an
idealized clock in which each iteration advances the wall clock by exactly
the five seconds of `time.sleep(5)`: `states k` is the remote state reported
by the `k`-th poll (0-based). -/
def waitLoop (states : Nat → MigrationState) (lengthSeconds k processingSeconds : Nat) :
    WaitOutcome :=
  if h : processingSeconds < lengthSeconds then
    if isJobFinished (states k) then .returned
    else waitLoop states lengthSeconds (k + 1) (processingSeconds + 5)
  else .exited 0
termination_by lengthSeconds - processingSeconds
decreasing_by omega

/-- Model of `_wait_until_job_finished` with its default 600-second ceiling
left as a parameter. -/
def waitUntilJobFinished (states : Nat → MigrationState) (lengthSeconds : Nat) :
    WaitOutcome :=
  waitLoop states lengthSeconds 0 0

/-- Observable outcome of `start_translation`: whether the pipeline
preprocess and postprocess phases ran, and how the polling phase ended. -/
structure TranslationRun where
  preprocessRan : Bool
  postprocessRan : Bool
  outcome : WaitOutcome
deriving DecidableEq

/-- Model of `start_translation`: preprocess always runs, the job is created,
then the polling loop runs; `Pipeline.postprocess` runs only when the loop
returned, because `sys.exit()` raises `SystemExit` which nothing catches. -/
def startTranslation (states : Nat → MigrationState) : TranslationRun :=
  match waitUntilJobFinished states 600 with
  | .returned => ⟨true, true, .returned⟩
  | .exited c => ⟨true, false, .exited c⟩

end BatchSqlTranslator

/-- Concrete macro table used by the round-trip counterexample: one glob
matching every path, token `${a}` replaced by `1` and token `${b}` replaced
by `12`. -/
def mapsC1 : MacroMaps := [(toL "*", [(toL "${a}", toL "1"), (toL "${b}", toL "12")])]

/-- Concrete macro table used by the round-trip witness. -/
def mapsC1W : MacroMaps := [(toL "*.sql", [(toL "${a}", toL "1"), (toL "${b}", toL "23")])]

/-- Concrete macro table with two glob patterns that both match `a.sql` and
both declare the token `t`, with different replacements. -/
def mapsC2 : MacroMaps := [(toL "*", [(toL "t", toL "1")]), (toL "*.sql", [(toL "t", toL "2")])]

/-- Concrete macro table declaring tokens only under `*.sql`. -/
def mapsC3 : MacroMaps := [(toL "*.sql", [(toL "${a}", toL "1")])]

/-- Concrete macro table for the glob-scoping claim: token `ab` is declared
only under `*.sql`, token `a` only under `*.csv`. -/
def mapsC8 : MacroMaps := [(toL "*.sql", [(toL "ab", toL "Z")]), (toL "*.csv", [(toL "a", toL "X")])]

/-- A hidden file entry under the input root. -/
def gitkeepEntry : FileEntry := ⟨toL ".gitkeep", true, toL "x"⟩

/-- A pass-through-classified file entry whose content a macro chain would
rewrite. -/
def csvEntry : FileEntry := ⟨toL "a.csv", true, toL "${a}"⟩

/-- A pure test processor that tags text with `A` in preprocess and `a` in
postprocess; used to exercise chain ordering. -/
def procA : Processor :=
  ⟨fun _ t => Except.ok (t ++ toL "A"), fun _ t => Except.ok (t ++ toL "a")⟩

/-- A pure test processor that tags text with `B` in preprocess and `b` in
postprocess; used to exercise chain ordering. -/
def procB : Processor :=
  ⟨fun _ t => Except.ok (t ++ toL "B"), fun _ t => Except.ok (t ++ toL "b")⟩

/-- One scan step of the fuel-indexed mirror of `reSub`; `next` is the
continuation applied to the rest of the text. -/
def reSubStep (keys : List (Str × Str)) (text : Str)
    (next : Str → Option (Except Unit Str)) : Option (Except Unit Str) :=
  match reMatch keys text with
  | none =>
    match text with
    | [] => some (Except.ok [])
    | c :: rest => (next rest).map (fun r => r.map (fun s => c :: s))
  | some tok =>
    match lookupTok keys tok with
    | none => some (Except.error ())
    | some rep =>
      if tok = [] then
        match text with
        | [] => some (Except.ok rep)
        | c :: rest => (next rest).map (fun r => r.map (fun s => rep ++ c :: s))
      else (next (text.drop tok.length)).map (fun r => r.map (fun s => rep ++ s))

/-- Fuel-indexed structural mirror of `reSub`, used to evaluate the scan on
concrete inputs (`reSub` itself is defined by well-founded recursion and does
not reduce definitionally); `reSubFuel_sound` transports its results to
`reSub`. -/
def reSubFuel (keys : List (Str × Str)) : Nat → Str → Option (Except Unit Str)
  | 0, _ => none
  | fuel + 1, text => reSubStep keys text (reSubFuel keys fuel)

/-! ## Lemmas about literal matching and the dict model -/

theorem litMatch_iff {k s : Str} : litMatch k s = true ↔ k <+: s := by
  induction k generalizing s with
  | nil => simp [litMatch]
  | cons x xs ih =>
    cases s with
    | nil => simp [litMatch]
    | cons c cs =>
      simp only [litMatch, Bool.and_eq_true, decide_eq_true_eq, ih]
      constructor
      · rintro ⟨rfl, t, rfl⟩
        exact ⟨t, rfl⟩
      · rintro ⟨t, ht⟩
        cases ht
        exact ⟨rfl, List.prefix_append _ _⟩

theorem map_fst_update {d : List (Str × Str)} {k v : Str} :
    (d.map (fun kv => if kv.1 = k then (k, v) else kv)).map Prod.fst
      = d.map Prod.fst := by
  rw [List.map_map]
  apply List.map_congr_left
  intro kv _
  dsimp only [Function.comp]
  split
  · rename_i h; exact h.symm
  · rfl

theorem keys_dictInsert {d : List (Str × Str)} {k v a : Str} :
    a ∈ (dictInsert d k v).map Prod.fst ↔ a ∈ d.map Prod.fst ∨ a = k := by
  unfold dictInsert
  split
  · rename_i hany
    simp only [List.any_eq_true, decide_eq_true_eq] at hany
    obtain ⟨kv, hkv, hk⟩ := hany
    rw [map_fst_update]
    constructor
    · exact Or.inl
    · rintro (h | rfl)
      · exact h
      · exact hk ▸ List.mem_map_of_mem Prod.fst hkv
  · simp only [List.map_append, List.mem_append, List.map_cons, List.map_nil,
      List.mem_singleton]

theorem pairs_dictInsert {d : List (Str × Str)} {k v : Str} {p : Str × Str} :
    p ∈ dictInsert d k v → p ∈ d ∨ p = (k, v) := by
  unfold dictInsert
  split
  · intro hp
    simp only [List.mem_map] at hp
    obtain ⟨q, hq, hqe⟩ := hp
    by_cases hqk : q.1 = k
    · right; rw [if_pos hqk] at hqe; exact hqe.symm
    · left; rw [if_neg hqk] at hqe; exact hqe ▸ hq
  · intro hp
    rcases List.mem_append.mp hp with h | h
    · exact Or.inl h
    · exact Or.inr (List.mem_singleton.mp h)

theorem nodup_keys_dictInsert {d : List (Str × Str)} {k v : Str}
    (h : (d.map Prod.fst).Nodup) : ((dictInsert d k v).map Prod.fst).Nodup := by
  unfold dictInsert
  split
  · rw [map_fst_update]; exact h
  · rename_i hany
    simp only [List.any_eq_true, decide_eq_true_eq, not_exists, not_and] at hany
    simp only [List.map_append, List.map_cons, List.map_nil]
    rw [List.nodup_append]
    refine ⟨h, List.nodup_singleton k, ?_⟩
    intro a ha hb
    simp only [List.mem_singleton] at hb
    subst hb
    obtain ⟨q, hq, rfl⟩ := List.mem_map.mp ha
    exact hany q hq rfl

theorem lookupTok_dictInsert_self {d : List (Str × Str)} {k v : Str} :
    lookupTok (dictInsert d k v) k = some v := by
  unfold dictInsert lookupTok
  split
  · induction d with
    | nil => rename_i hany; simp at hany
    | cons q rest ih =>
      rename_i hany
      simp only [List.map_cons]
      by_cases hq : q.1 = k
      · simp [if_pos hq, List.find?_cons]
      · simp only [if_neg hq, List.find?_cons]
        have h2 : decide (q.1 = k) = false := by
          simp only [decide_eq_false_iff_not]; exact hq
        rw [h2]
        apply ih
        simp only [List.any_cons, Bool.or_eq_true, decide_eq_true_eq] at hany
        rcases hany with h | h
        · exact absurd h hq
        · simpa using h
  · rw [List.find?_append]
    have h0 : List.find? (fun kv => decide (kv.1 = k)) d = none := by
      rename_i hany
      simp only [List.any_eq_true, decide_eq_true_eq, not_exists, not_and] at hany
      rw [List.find?_eq_none]
      intro x hx
      simpa using hany x hx
    rw [h0]
    simp [List.find?]

theorem find?_update_ne {d : List (Str × Str)} {k v a : Str} (hak : a ≠ k) :
    List.find? (fun kv => decide (kv.1 = a))
        (d.map (fun kv => if kv.1 = k then (k, v) else kv))
      = List.find? (fun kv => decide (kv.1 = a)) d := by
  induction d with
  | nil => rfl
  | cons q rest ih =>
    simp only [List.map_cons]
    by_cases hq : q.1 = k
    · simp only [if_pos hq, List.find?_cons]
      have h1 : decide (((k, v) : Str × Str).1 = a) = false := by
        simp only [decide_eq_false_iff_not]; exact Ne.symm hak
      have h2 : decide (q.1 = a) = false := by
        simp only [decide_eq_false_iff_not]; rw [hq]; exact Ne.symm hak
      rw [h1, h2]
      exact ih
    · simp only [if_neg hq, List.find?_cons]
      cases hqa : decide (q.1 = a) with
      | true => rfl
      | false => exact ih

theorem lookupTok_dictInsert_ne {d : List (Str × Str)} {k v a : Str} (hak : a ≠ k) :
    lookupTok (dictInsert d k v) a = lookupTok d a := by
  unfold dictInsert lookupTok
  split
  · rw [find?_update_ne hak]
  · rw [List.find?_append]
    have h0 : List.find? (fun kv => decide (kv.1 = a)) [(k, v)] = none := by
      simp only [List.find?, decide_eq_false (Ne.symm hak)]
    rw [h0, Option.or_none]

/-! ## Lemmas about `buildDict` and the merged pattern mapping -/

theorem pairs_buildDictFrom {l acc : List (Str × Str)} {p : Str × Str}
    (h : p ∈ buildDictFrom acc l) : p ∈ acc ∨ p ∈ l := by
  induction l generalizing acc with
  | nil => exact Or.inl h
  | cons kv rest ih =>
    rcases ih h with h1 | h1
    · rcases pairs_dictInsert h1 with h2 | h2
      · exact Or.inl h2
      · right; rw [h2, Prod.mk.eta]; exact List.mem_cons_self kv rest
    · exact Or.inr (List.mem_cons_of_mem kv h1)

theorem keys_buildDictFrom {l acc : List (Str × Str)} {a : Str} :
    a ∈ (buildDictFrom acc l).map Prod.fst
      ↔ a ∈ acc.map Prod.fst ∨ a ∈ l.map Prod.fst := by
  induction l generalizing acc with
  | nil => simp [buildDictFrom]
  | cons kv rest ih =>
    show a ∈ (buildDictFrom (dictInsert acc kv.1 kv.2) rest).map Prod.fst ↔ _
    rw [ih]
    rw [keys_dictInsert]
    simp only [List.map_cons, List.mem_cons]
    tauto

theorem nodup_keys_buildDictFrom {l acc : List (Str × Str)}
    (h : (acc.map Prod.fst).Nodup) : ((buildDictFrom acc l).map Prod.fst).Nodup := by
  induction l generalizing acc with
  | nil => exact h
  | cons kv rest ih => exact ih (nodup_keys_dictInsert h)

theorem lastVal_general {a : Str} (l : List (Str × Str)) (acc0 : Option Str) :
    l.foldl (fun acc kv => if kv.1 = a then some kv.2 else acc) acc0
      = (lastVal l a).or acc0 := by
  induction l generalizing acc0 with
  | nil => simp [lastVal, Option.none_or]
  | cons kv rest ih =>
    show List.foldl _ (if kv.1 = a then some kv.2 else acc0) rest = _
    rw [ih]
    have hr : lastVal (kv :: rest) a
        = (lastVal rest a).or (if kv.1 = a then some kv.2 else none) := by
      show List.foldl _ (if kv.1 = a then some kv.2 else none) rest = _
      rw [ih]
    rw [hr, Option.or_assoc]
    congr 1
    split
    · rfl
    · rw [Option.none_or]

theorem lastVal_cons {a : Str} {kv : Str × Str} {l : List (Str × Str)} :
    lastVal (kv :: l) a = (lastVal l a).or (if kv.1 = a then some kv.2 else none) := by
  show List.foldl _ (if kv.1 = a then some kv.2 else none) l = _
  rw [lastVal_general]

theorem lookupTok_buildDictFrom {l acc : List (Str × Str)} {a : Str} :
    lookupTok (buildDictFrom acc l) a = (lastVal l a).or (lookupTok acc a) := by
  induction l generalizing acc with
  | nil => simp [buildDictFrom, lastVal, Option.none_or]
  | cons kv rest ih =>
    show lookupTok (buildDictFrom (dictInsert acc kv.1 kv.2) rest) a = _
    rw [ih, lastVal_cons, Option.or_assoc]
    congr 1
    by_cases ha : a = kv.1
    · subst ha
      rw [lookupTok_dictInsert_self, if_pos rfl]
      rfl
    · rw [lookupTok_dictInsert_ne ha, if_neg (fun hh => ha hh.symm), Option.none_or]

theorem lookupTok_buildDict {l : List (Str × Str)} {a : Str} :
    lookupTok (buildDict l) a = lastVal l a := by
  unfold buildDict
  rw [lookupTok_buildDictFrom]
  show (lastVal l a).or none = _
  rw [Option.or_none]

theorem getAll_foldl {path : Str} (ms : MacroMaps) (acc : List (Str × Str)) :
    ms.foldl (fun acc e => if fnmatch path e.1 then buildDictFrom acc e.2 else acc) acc
      = buildDictFrom acc (matchedDecls ms path) := by
  induction ms generalizing acc with
  | nil => rfl
  | cons e rest ih =>
    show List.foldl _ (if fnmatch path e.1 then buildDictFrom acc e.2 else acc) rest = _
    rw [ih]
    unfold matchedDecls
    rw [List.filter_cons]
    by_cases hf : fnmatch path e.1
    · rw [if_pos hf, if_pos hf]
      simp only [List.map_cons, List.flatten_cons]
      unfold buildDictFrom
      rw [List.foldl_append]
    · rw [if_neg hf, if_neg (by simpa using hf)]

theorem getAll_eq (maps : MacroMaps) (path : Str) (b : Bool) :
    MacroProcessor.getAllRegexPatternMapping maps path b
      = buildDict (matchedDecls
          (if b then MacroProcessor.getReversedMaps maps else maps) path) := by
  unfold MacroProcessor.getAllRegexPatternMapping buildDict
  exact getAll_foldl _ []

theorem mem_matchedDecls_iff {maps : MacroMaps} {path : Str} {p : Str × Str} :
    p ∈ matchedDecls maps path
      ↔ ∃ e ∈ maps, fnmatch path e.1 = true ∧ p ∈ e.2 := by
  unfold matchedDecls
  simp only [List.mem_flatten, List.mem_map, List.mem_filter]
  constructor
  · rintro ⟨l, ⟨e, ⟨he, hf⟩, rfl⟩, hp⟩
    exact ⟨e, he, hf, hp⟩
  · rintro ⟨e, he, hf, hp⟩
    exact ⟨e.2, ⟨e, ⟨he, hf⟩, rfl⟩, hp⟩

/-! ## Case equations for the substitution scan -/

theorem reSub_none_nil {keys : List (Str × Str)}
    (h : reMatch keys [] = none) : reSub keys [] = Except.ok [] := by
  rw [reSub]
  split
  · rfl
  · rename_i tok hm
    rw [h] at hm
    cases hm

theorem reSub_none_cons {keys : List (Str × Str)} {c : Char} {rest : Str}
    (h : reMatch keys (c :: rest) = none) :
    reSub keys (c :: rest) = (reSub keys rest).map (fun s => c :: s) := by
  rw [reSub]
  split
  · rfl
  · rename_i tok hm
    rw [h] at hm
    cases hm

theorem reSub_some_nokey {keys : List (Str × Str)} {text tok : Str}
    (hm : reMatch keys text = some tok) (hl : lookupTok keys tok = none) :
    reSub keys text = Except.error () := by
  rw [reSub]
  split
  · rename_i hm2
    rw [hm2] at hm
    cases hm
  · rename_i tok2 hm2
    rw [hm2] at hm
    cases hm
    rw [hl]

theorem reSub_some_pos {keys : List (Str × Str)} {text tok rep : Str}
    (hm : reMatch keys text = some tok) (hne : tok ≠ [])
    (hl : lookupTok keys tok = some rep) :
    reSub keys text = (reSub keys (text.drop tok.length)).map (fun s => rep ++ s) := by
  rw [reSub]
  split
  · rename_i hm2
    rw [hm2] at hm
    cases hm
  · rename_i tok2 hm2
    rw [hm2] at hm
    cases hm
    rw [hl]
    show (if h : tok = [] then _ else _) = _
    rw [dif_neg hne]

theorem reSub_some_nilTok_nil {keys : List (Str × Str)} {rep : Str}
    (hm : reMatch keys [] = some []) (hl : lookupTok keys [] = some rep) :
    reSub keys [] = Except.ok rep := by
  rw [reSub]
  split
  · rename_i hm2
    rw [hm2] at hm
    cases hm
  · rename_i tok2 hm2
    rw [hm2] at hm
    cases hm
    rw [hl]
    rfl

theorem reSub_some_nilTok_cons {keys : List (Str × Str)} {c : Char} {rest rep : Str}
    (hm : reMatch keys (c :: rest) = some []) (hl : lookupTok keys [] = some rep) :
    reSub keys (c :: rest) = (reSub keys rest).map (fun s => rep ++ c :: s) := by
  rw [reSub]
  split
  · rename_i hm2
    rw [hm2] at hm
    cases hm
  · rename_i tok2 hm2
    rw [hm2] at hm
    cases hm
    rw [hl]
    rfl

/-! ## Behavioural lemmas for the substitution scan -/

theorem isEmpty_false_of_ne_nil {l : List (Str × Str)} (h : l ≠ []) :
    l.isEmpty = false := by
  cases l with
  | nil => exact absurd rfl h
  | cons a as => rfl

theorem reMatch_eq_findTok {keys : List (Str × Str)} {text : Str} (hk : keys ≠ []) :
    reMatch keys text = (findTok keys text).map (fun kv => kv.1) := by
  unfold reMatch
  rw [if_neg (by rw [isEmpty_false_of_ne_nil hk]; exact Bool.false_ne_true)]

theorem reMatch_some_inv {keys : List (Str × Str)} {text tok : Str}
    (hk : keys ≠ []) (hm : reMatch keys text = some tok) :
    ∃ kv, findTok keys text = some kv ∧ kv.1 = tok ∧ kv ∈ keys
      ∧ litMatch tok text = true := by
  rw [reMatch_eq_findTok hk] at hm
  cases hfind : findTok keys text with
  | none => rw [hfind] at hm; cases hm
  | some kv =>
    rw [hfind] at hm
    simp only [Option.map_some'] at hm
    cases hm
    refine ⟨kv, rfl, rfl, ?_, ?_⟩
    · exact List.mem_of_find?_eq_some hfind
    · simpa using List.find?_some hfind

theorem lookupTok_isSome_of_key {keys : List (Str × Str)} {kv : Str × Str}
    (h : kv ∈ keys) : ∃ v, lookupTok keys kv.1 = some v := by
  unfold lookupTok
  cases hf : List.find? (fun q => decide (q.1 = kv.1)) keys with
  | none =>
    rw [List.find?_eq_none] at hf
    exact absurd (by simp) (hf kv h)
  | some q => exact ⟨q.2, rfl⟩

theorem eq_of_fst_eq_of_nodup {l : List (Str × Str)} (h : (l.map Prod.fst).Nodup)
    {p q : Str × Str} (hp : p ∈ l) (hq : q ∈ l) (he : p.1 = q.1) : p = q := by
  induction l with
  | nil => cases hp
  | cons x rest ih =>
    simp only [List.map_cons, List.nodup_cons] at h
    rcases List.mem_cons.mp hp with rfl | hp2
    · rcases List.mem_cons.mp hq with rfl | hq2
      · rfl
      · exact absurd (he ▸ List.mem_map_of_mem Prod.fst hq2) h.1
    · rcases List.mem_cons.mp hq with rfl | hq2
      · exact absurd (he ▸ List.mem_map_of_mem Prod.fst hp2) h.1
      · exact ih h.2 hp2 hq2

theorem lookupTok_eq_of_mem_nodup {l : List (Str × Str)}
    (h : (l.map Prod.fst).Nodup) {p : Str × Str} (hp : p ∈ l) :
    lookupTok l p.1 = some p.2 := by
  unfold lookupTok
  cases hf : List.find? (fun q => decide (q.1 = p.1)) l with
  | none =>
    rw [List.find?_eq_none] at hf
    exact absurd (by simp) (hf p hp)
  | some q =>
    have hq1 : q.1 = p.1 := by simpa using List.find?_some hf
    have hqm := List.mem_of_find?_eq_some hf
    have hqp := eq_of_fst_eq_of_nodup h hqm hp hq1
    subst hqp
    rfl

theorem reSub_ok {keys : List (Str × Str)} (hk : keys ≠ []) (text : Str) :
    ∃ s, reSub keys text = Except.ok s := by
  suffices hs : ∀ (n : Nat) (t : Str), t.length ≤ n → ∃ s, reSub keys t = Except.ok s from
    hs text.length text le_rfl
  intro n
  induction n with
  | zero =>
    intro t hlen
    have ht : t = [] := List.eq_nil_of_length_eq_zero (Nat.le_zero.mp hlen)
    subst ht
    cases hm : reMatch keys [] with
    | none => exact ⟨[], reSub_none_nil hm⟩
    | some tok =>
      obtain ⟨kv, hfind, hfst, hmem, hlit⟩ := reMatch_some_inv hk hm
      have htok : tok = [] := by
        have := litMatch_iff.mp hlit
        simpa using this
      subst htok
      obtain ⟨rep, hrep⟩ := lookupTok_isSome_of_key hmem
      rw [hfst] at hrep
      exact ⟨rep, reSub_some_nilTok_nil hm hrep⟩
  | succ n ih =>
    intro t hlen
    cases hm : reMatch keys t with
    | none =>
      cases t with
      | nil => exact ⟨[], reSub_none_nil hm⟩
      | cons c rest =>
        obtain ⟨s, hs⟩ := ih rest (by simp only [List.length_cons] at hlen; omega)
        exact ⟨c :: s, by rw [reSub_none_cons hm, hs]; rfl⟩
    | some tok =>
      obtain ⟨kv, hfind, hfst, hmem, hlit⟩ := reMatch_some_inv hk hm
      obtain ⟨rep, hrep⟩ := lookupTok_isSome_of_key hmem
      rw [hfst] at hrep
      by_cases htok : tok = []
      · subst htok
        cases t with
        | nil => exact ⟨rep, reSub_some_nilTok_nil hm hrep⟩
        | cons c rest =>
          obtain ⟨s, hs⟩ := ih rest (by simp only [List.length_cons] at hlen; omega)
          exact ⟨rep ++ c :: s, by rw [reSub_some_nilTok_cons hm hrep, hs]; rfl⟩
      · have h1 : tok.length ≤ t.length := (litMatch_iff.mp hlit).length_le
        have h2 : 0 < tok.length := List.length_pos.mpr htok
        obtain ⟨s, hs⟩ := ih (t.drop tok.length)
          (by simp only [List.length_drop]; omega)
        exact ⟨rep ++ s, by rw [reSub_some_pos hm htok hrep, hs]; rfl⟩

theorem reSub_id_of_no_occurrence {keys : List (Str × Str)} (hk : keys ≠ []) :
    ∀ text : Str, (∀ kv ∈ keys, ¬ kv.1 <:+: text) →
      reSub keys text = Except.ok text := by
  intro text
  induction text with
  | nil =>
    intro hno
    apply reSub_none_nil
    rw [reMatch_eq_findTok hk]
    have : findTok keys [] = none := by
      unfold findTok
      rw [List.find?_eq_none]
      intro kv hkv
      intro hcontra
      have hpre := litMatch_iff.mp hcontra
      have hnil : kv.1 = [] := List.prefix_nil.mp hpre
      exact hno kv hkv ⟨[], [], by simp [hnil]⟩
    rw [this]
    rfl
  | cons c rest ih =>
    intro hno
    have hfind : findTok keys (c :: rest) = none := by
      unfold findTok
      rw [List.find?_eq_none]
      intro kv hkv
      intro hcontra
      obtain ⟨r, hr⟩ := litMatch_iff.mp hcontra
      exact hno kv hkv ⟨[], r, by simpa using hr⟩
    have hm : reMatch keys (c :: rest) = none := by
      rw [reMatch_eq_findTok hk, hfind]
      rfl
    rw [reSub_none_cons hm]
    rw [ih (fun kv hkv hinf => hno kv hkv (by
      obtain ⟨s, t, hst⟩ := hinf
      exact ⟨c :: s, t, by rw [← hst]; rfl⟩))]
    rfl

theorem reSub_blocks {keys : List (Str × Str)}
    (hk : keys ≠ [])
    (hnd : (keys.map Prod.fst).Nodup)
    (hne : ∀ kv ∈ keys, kv.1 ≠ [])
    (hpc : ∀ kv ∈ keys, ∀ qv ∈ keys, kv.1 <+: qv.1 → kv.1 = qv.1) :
    ∀ ρ : List (Str × Str), (∀ p ∈ ρ, p ∈ keys) →
      reSub keys (ρ.map Prod.fst).flatten = Except.ok (ρ.map Prod.snd).flatten := by
  intro ρ
  induction ρ with
  | nil =>
    intro _
    apply reSub_none_nil
    rw [reMatch_eq_findTok hk]
    have hf : findTok keys [] = none := by
      unfold findTok
      rw [List.find?_eq_none]
      intro kv hkv hcontra
      exact hne kv hkv (List.prefix_nil.mp (litMatch_iff.mp hcontra))
    rw [hf]
    rfl
  | cons p rest ih =>
    intro hρ
    have hpk : p ∈ keys := hρ p (List.mem_cons_self p rest)
    simp only [List.map_cons, List.flatten_cons]
    have hptext : litMatch p.1 (p.1 ++ (rest.map Prod.fst).flatten) = true :=
      litMatch_iff.mpr (List.prefix_append _ _)
    cases hfind : findTok keys (p.1 ++ (rest.map Prod.fst).flatten) with
    | none =>
      unfold findTok at hfind
      rw [List.find?_eq_none] at hfind
      exact absurd hptext (hfind p hpk)
    | some q =>
      have hfind2 := hfind
      unfold findTok at hfind2
      have hqlit : litMatch q.1 (p.1 ++ (rest.map Prod.fst).flatten) = true := by
        have h4 := List.find?_some hfind2
        simpa using h4
      have hqm : q ∈ keys := List.mem_of_find?_eq_some hfind2
      have hq1 : q.1 = p.1 := by
        have hqpre := litMatch_iff.mp hqlit
        have hppre := litMatch_iff.mp hptext
        rcases Nat.le_total q.1.length p.1.length with hle | hle
        · exact hpc q hqm p hpk (List.prefix_of_prefix_length_le hqpre hppre hle)
        · exact (hpc p hpk q hqm (List.prefix_of_prefix_length_le hppre hqpre hle)).symm
      have hqp : q = p := eq_of_fst_eq_of_nodup hnd hqm hpk hq1
      subst hqp
      have hm : reMatch keys (q.1 ++ (rest.map Prod.fst).flatten) = some q.1 := by
        rw [reMatch_eq_findTok hk, hfind]
        rfl
      have hlook : lookupTok keys q.1 = some q.2 := lookupTok_eq_of_mem_nodup hnd hqm
      rw [reSub_some_pos hm (hne q hqm) hlook]
      rw [List.drop_left]
      rw [ih (fun x hx => hρ x (List.mem_cons_of_mem q hx))]
      rfl

/-! ## Glue lemmas between the merged maps and the declared pairs -/

theorem ne_nil_of_key_mem {l : List (Str × Str)} {a : Str}
    (h : a ∈ l.map Prod.fst) : l ≠ [] := by
  intro hl
  subst hl
  simp at h

theorem lookup_pair_mem {l : List (Str × Str)} (hnd : (l.map Prod.fst).Nodup)
    {a : Str} (ha : a ∈ l.map Prod.fst) :
    ∃ v, lookupTok l a = some v ∧ (a, v) ∈ l := by
  obtain ⟨q, hq, rfl⟩ := List.mem_map.mp ha
  refine ⟨q.2, ?_, ?_⟩
  · rw [lookupTok_eq_of_mem_nodup hnd hq]
  · rw [Prod.mk.eta]
    exact hq

theorem mergedFwd_pairs {maps : MacroMaps} {path : Str} {p : Str × Str}
    (h : p ∈ MacroProcessor.getAllRegexPatternMapping maps path false) :
    p ∈ matchedDecls maps path := by
  rw [getAll_eq] at h
  rcases pairs_buildDictFrom h with h1 | h1
  · cases h1
  · simpa using h1

theorem mergedRev_pairs {maps : MacroMaps} {path : Str} {p : Str × Str}
    (h : p ∈ MacroProcessor.getAllRegexPatternMapping maps path true) :
    p ∈ matchedDecls (MacroProcessor.getReversedMaps maps) path := by
  rw [getAll_eq] at h
  rcases pairs_buildDictFrom h with h1 | h1
  · cases h1
  · simpa using h1

theorem mergedFwd_keys {maps : MacroMaps} {path : Str} {a : Str} :
    a ∈ (MacroProcessor.getAllRegexPatternMapping maps path false).map Prod.fst
      ↔ a ∈ (matchedDecls maps path).map Prod.fst := by
  rw [getAll_eq]
  unfold buildDict
  rw [keys_buildDictFrom]
  simp

theorem mergedRev_keys {maps : MacroMaps} {path : Str} {a : Str} :
    a ∈ (MacroProcessor.getAllRegexPatternMapping maps path true).map Prod.fst
      ↔ a ∈ (matchedDecls (MacroProcessor.getReversedMaps maps) path).map Prod.fst := by
  rw [getAll_eq]
  unfold buildDict
  rw [keys_buildDictFrom]
  simp

theorem merged_nodup {maps : MacroMaps} {path : Str} {b : Bool} :
    ((MacroProcessor.getAllRegexPatternMapping maps path b).map Prod.fst).Nodup := by
  rw [getAll_eq]
  exact nodup_keys_buildDictFrom List.nodup_nil

theorem revDecls_pairs {maps : MacroMaps} {path : Str} {p : Str × Str}
    (h : p ∈ matchedDecls (MacroProcessor.getReversedMaps maps) path) :
    (p.2, p.1) ∈ matchedDecls maps path := by
  rw [mem_matchedDecls_iff] at h
  obtain ⟨e, he, hf, hp⟩ := h
  unfold MacroProcessor.getReversedMaps at he
  obtain ⟨e0, he0, rfl⟩ := List.mem_map.mp he
  rcases pairs_buildDictFrom hp with h1 | h1
  · cases h1
  · obtain ⟨q, hq, hqe⟩ := List.mem_map.mp h1
    rw [mem_matchedDecls_iff]
    refine ⟨e0, he0, by simpa using hf, ?_⟩
    rw [← hqe]
    simpa [Prod.mk.eta] using hq

theorem revDecls_keys {maps : MacroMaps} {path : Str} {t v : Str}
    (h : (t, v) ∈ matchedDecls maps path) :
    v ∈ (matchedDecls (MacroProcessor.getReversedMaps maps) path).map Prod.fst := by
  rw [mem_matchedDecls_iff] at h
  obtain ⟨e, he, hf, hp⟩ := h
  have hmem : (e.1, buildDict (e.2.map (fun kv => (kv.2, kv.1))))
      ∈ MacroProcessor.getReversedMaps maps := by
    unfold MacroProcessor.getReversedMaps
    exact List.mem_map_of_mem _ he
  have hkey : v ∈ (buildDict (e.2.map (fun kv => (kv.2, kv.1)))).map Prod.fst := by
    unfold buildDict
    rw [keys_buildDictFrom]
    right
    rw [List.map_map]
    exact List.mem_map.mpr ⟨(t, v), hp, rfl⟩
  obtain ⟨q, hq, rfl⟩ := List.mem_map.mp hkey
  apply List.mem_map_of_mem
  rw [mem_matchedDecls_iff]
  exact ⟨_, hmem, by simpa using hf, hq⟩

/-! ## Round-trip (claim C1) -/

/-- Claim C1 (amended): for a path and a text that is a concatenation of
tokens declared under glob patterns matching the path,
`postprocess(path, preprocess(path, text)) = text` holds provided that,
across all pairs declared under the matching patterns, (1) no replacement is
shared by two distinct tokens, (2) tokens are non-empty and no declared token
is a proper literal prefix of another, (3) replacements are non-empty and no
declared replacement is a proper literal prefix of another, and (4) at least
one pair is declared.  Conditions (2)-(4) are forced by the ordered
first-alternative regex semantics: without them the single-pass scan can
split a token or a replacement (see the counterexample). -/
theorem c1_round_trip_amended (maps : MacroMaps) (path : Str) (tokens : List Str)
    (hdecl : matchedDecls maps path ≠ [])
    (hne : ∀ p ∈ matchedDecls maps path, p.1 ≠ [] ∧ p.2 ≠ [])
    (hpct : ∀ p ∈ matchedDecls maps path, ∀ q ∈ matchedDecls maps path,
      p.1 <+: q.1 → p.1 = q.1)
    (hpcv : ∀ p ∈ matchedDecls maps path, ∀ q ∈ matchedDecls maps path,
      p.2 <+: q.2 → p.2 = q.2)
    (hinj : ∀ p ∈ matchedDecls maps path, ∀ q ∈ matchedDecls maps path,
      p.2 = q.2 → p.1 = q.1)
    (htok : ∀ t ∈ tokens, t ∈ (matchedDecls maps path).map Prod.fst) :
    (MacroProcessor.preprocess maps path tokens.flatten).bind
        (MacroProcessor.postprocess maps path)
      = Except.ok tokens.flatten := by
  have hndF : ((MacroProcessor.getAllRegexPatternMapping maps path false).map
      Prod.fst).Nodup := merged_nodup
  have hneF : ∀ kv ∈ MacroProcessor.getAllRegexPatternMapping maps path false,
      kv.1 ≠ [] := fun kv hkv => (hne kv (mergedFwd_pairs hkv)).1
  have hpcF : ∀ kv ∈ MacroProcessor.getAllRegexPatternMapping maps path false,
      ∀ qv ∈ MacroProcessor.getAllRegexPatternMapping maps path false,
      kv.1 <+: qv.1 → kv.1 = qv.1 :=
    fun kv hkv qv hqv => hpct kv (mergedFwd_pairs hkv) qv (mergedFwd_pairs hqv)
  obtain ⟨p0, hp0⟩ := List.exists_mem_of_ne_nil _ hdecl
  have hkF : MacroProcessor.getAllRegexPatternMapping maps path false ≠ [] :=
    ne_nil_of_key_mem (mergedFwd_keys.mpr (List.mem_map_of_mem Prod.fst hp0))
  set F := MacroProcessor.getAllRegexPatternMapping maps path false with hFdef
  set ρ := tokens.map (fun t => (t, (lookupTok F t).getD [])) with hρdef
  have hρmem : ∀ p ∈ ρ, p ∈ F := by
    intro p hp
    rw [hρdef] at hp
    obtain ⟨t, ht, rfl⟩ := List.mem_map.mp hp
    obtain ⟨v, hv, hvm⟩ := lookup_pair_mem hndF (mergedFwd_keys.mpr (htok t ht))
    rw [hv]
    simpa using hvm
  have hρfst : ρ.map Prod.fst = tokens := by
    rw [hρdef, List.map_map]
    exact List.map_id tokens
  have hpre : reSub F tokens.flatten = Except.ok ((ρ.map Prod.snd).flatten) := by
    conv_lhs => rw [← hρfst]
    exact reSub_blocks hkF hndF hneF hpcF ρ hρmem
  have hndR : ((MacroProcessor.getAllRegexPatternMapping maps path true).map
      Prod.fst).Nodup := merged_nodup
  have hRpairs : ∀ kv ∈ MacroProcessor.getAllRegexPatternMapping maps path true,
      (kv.2, kv.1) ∈ matchedDecls maps path :=
    fun kv hkv => revDecls_pairs (mergedRev_pairs hkv)
  have hneR : ∀ kv ∈ MacroProcessor.getAllRegexPatternMapping maps path true,
      kv.1 ≠ [] := fun kv hkv => (hne _ (hRpairs kv hkv)).2
  have hpcR : ∀ kv ∈ MacroProcessor.getAllRegexPatternMapping maps path true,
      ∀ qv ∈ MacroProcessor.getAllRegexPatternMapping maps path true,
      kv.1 <+: qv.1 → kv.1 = qv.1 :=
    fun kv hkv qv hqv h => hpcv _ (hRpairs kv hkv) _ (hRpairs qv hqv) h
  have hp02 : (p0.1, p0.2) ∈ matchedDecls maps path := by
    rw [Prod.mk.eta]
    exact hp0
  have hkR : MacroProcessor.getAllRegexPatternMapping maps path true ≠ [] :=
    ne_nil_of_key_mem (mergedRev_keys.mpr (revDecls_keys hp02))
  set R := MacroProcessor.getAllRegexPatternMapping maps path true with hRdef
  set σ := ρ.map (fun p => (p.2, p.1)) with hσdef
  have hσmem : ∀ s ∈ σ, s ∈ R := by
    intro s hs
    rw [hσdef] at hs
    obtain ⟨p, hp, rfl⟩ := List.mem_map.mp hs
    have hpD := mergedFwd_pairs (hρmem p hp)
    have hpD2 : (p.1, p.2) ∈ matchedDecls maps path := by
      rw [Prod.mk.eta]
      exact hpD
    have hkey : p.2 ∈ R.map Prod.fst := mergedRev_keys.mpr (revDecls_keys hpD2)
    obtain ⟨u, hu, hum⟩ := lookup_pair_mem hndR hkey
    have humD := hRpairs _ hum
    have hup : u = p.1 := hinj (u, p.2) humD p hpD rfl
    rw [← hup]
    exact hum
  have hσfst : σ.map Prod.fst = ρ.map Prod.snd := by
    rw [hσdef, List.map_map]
    rfl
  have hσsnd : σ.map Prod.snd = tokens := by
    rw [hσdef, List.map_map]
    rw [← hρfst]
    rfl
  have hpost : reSub R ((ρ.map Prod.snd).flatten) = Except.ok tokens.flatten := by
    have hblocks := reSub_blocks hkR hndR hneR hpcR σ hσmem
    rw [hσfst, hσsnd] at hblocks
    exact hblocks
  show (MacroProcessor.preprocess maps path tokens.flatten).bind
      (MacroProcessor.postprocess maps path) = Except.ok tokens.flatten
  unfold MacroProcessor.preprocess MacroProcessor.postprocess
  rw [hpre]
  exact hpost

/-- Every result the fuel-indexed mirror produces agrees with `reSub`. -/
theorem reSubFuel_sound {keys : List (Str × Str)} :
    ∀ (fuel : Nat) (text : Str) (r : Except Unit Str),
      reSubFuel keys fuel text = some r → reSub keys text = r := by
  intro fuel
  induction fuel with
  | zero =>
    intro text r h
    cases h
  | succ n ih =>
    intro text r h
    rw [show reSubFuel keys (n + 1) text
        = reSubStep keys text (reSubFuel keys n) from rfl] at h
    unfold reSubStep at h
    cases hm : reMatch keys text with
    | none =>
      simp only [hm] at h
      cases text with
      | nil =>
        cases h
        exact reSub_none_nil hm
      | cons c rest =>
        cases hf : reSubFuel keys n rest with
        | none => simp [hf] at h
        | some r' =>
          simp only [hf, Option.map_some'] at h
          cases h
          rw [reSub_none_cons hm, ih rest r' hf]
    | some tok =>
      simp only [hm] at h
      cases hl : lookupTok keys tok with
      | none =>
        simp only [hl] at h
        cases h
        exact reSub_some_nokey hm hl
      | some rep =>
        simp only [hl] at h
        by_cases htok : tok = []
        · rw [if_pos htok] at h
          subst htok
          cases text with
          | nil =>
            cases h
            exact reSub_some_nilTok_nil hm hl
          | cons c rest =>
            cases hf : reSubFuel keys n rest with
            | none => simp [hf] at h
            | some r' =>
              simp only [hf, Option.map_some'] at h
              cases h
              rw [reSub_some_nilTok_cons hm hl, ih rest r' hf]
        · rw [if_neg htok] at h
          cases hf : reSubFuel keys n (text.drop tok.length) with
          | none => simp [hf] at h
          | some r' =>
            simp only [hf, Option.map_some'] at h
            cases h
            rw [reSub_some_pos hm htok hl, ih _ r' hf]

/-! ## Claim theorems for the macro engine -/

/-- Counterexample to claim C1 as frozen: under `mapsC1` the single pattern
`*` matches the path `x` and declares `${a} ↦ 1` and `${b} ↦ 12`; no
replacement is shared by two distinct tokens and the text `${b}${a}` is built
only from declared tokens, yet the round trip returns `${a}2${a}` instead of
the original text, because during unexpansion the alternative `1` (listed
first) matches inside the expanded text `121` before `12` can. -/
theorem c1_counterexample :
    (∀ p ∈ matchedDecls mapsC1 (toL "x"), ∀ q ∈ matchedDecls mapsC1 (toL "x"),
        p.2 = q.2 → p.1 = q.1)
    ∧ (∀ t ∈ [toL "${b}", toL "${a}"],
        t ∈ (matchedDecls mapsC1 (toL "x")).map Prod.fst)
    ∧ (MacroProcessor.preprocess mapsC1 (toL "x")
          ([toL "${b}", toL "${a}"] : List Str).flatten).bind
        (MacroProcessor.postprocess mapsC1 (toL "x"))
      ≠ Except.ok ([toL "${b}", toL "${a}"] : List Str).flatten := by
  refine ⟨by decide, by decide, ?_⟩
  intro hcontra
  have h1 : MacroProcessor.preprocess mapsC1 (toL "x")
      ([toL "${b}", toL "${a}"] : List Str).flatten = Except.ok (toL "121") :=
    reSubFuel_sound 20 _ _ (by decide)
  rw [h1] at hcontra
  have h3 : MacroProcessor.postprocess mapsC1 (toL "x") (toL "121")
      = Except.ok ([toL "${b}", toL "${a}"] : List Str).flatten := hcontra
  have h2 : MacroProcessor.postprocess mapsC1 (toL "x") (toL "121")
      = Except.ok (toL "${a}2${a}") :=
    reSubFuel_sound 20 _ _ (by decide)
  rw [h2] at h3
  exact absurd h3 (by decide)

/-- Witness for C1: a concrete macro table, path and token text satisfying
every hypothesis of the amended round-trip theorem. -/
theorem c1_round_trip_amended_witness :
    (MacroProcessor.preprocess mapsC1W (toL "a.sql")
        ([toL "${b}", toL "${a}"] : List Str).flatten).bind
      (MacroProcessor.postprocess mapsC1W (toL "a.sql"))
    = Except.ok ([toL "${b}", toL "${a}"] : List Str).flatten :=
  c1_round_trip_amended mapsC1W (toL "a.sql") [toL "${b}", toL "${a}"]
    (by decide) (by decide) (by decide) (by decide) (by decide) (by decide)

/-- Claim C2 (amended): within one call to
`_get_all_regex_pattern_mapping`, when several matching patterns declare the
same token, the merged accumulator keeps the replacement of the
last-iterated entry — plain dict assignment overwrites, so the LAST match
wins (the frozen claim says the first does). -/
theorem c2_last_match_wins (maps : MacroMaps) (path t : Str) (b : Bool) :
    lookupTok (MacroProcessor.getAllRegexPatternMapping maps path b) t
      = lastVal (matchedDecls
          (if b then MacroProcessor.getReversedMaps maps else maps) path) t := by
  rw [getAll_eq]
  exact lookupTok_buildDict

/-- Counterexample to claim C2 as frozen: both `*` and `*.sql` match `a.sql`
and declare the token `t` (with `1` and then `2`); the merged accumulator
holds `2`, the replacement of the later entry, not `1`. -/
theorem c2_counterexample :
    fnmatch (toL "a.sql") (toL "*") = true
    ∧ fnmatch (toL "a.sql") (toL "*.sql") = true
    ∧ lookupTok (MacroProcessor.getAllRegexPatternMapping mapsC2 (toL "a.sql") false)
        (toL "t") = some (toL "2")
    ∧ (some (toL "2") : Option Str) ≠ some (toL "1") := by
  refine ⟨by decide, by decide, by decide, by decide⟩

/-- Claim C3 (code bug): for the path `b.txt`, which no pattern of `mapsC3`
matches, the merged map is empty; `"|".join` of no alternatives compiles to
the empty pattern, which matches the empty string at position 0, and the
replacement callback's lookup of the matched empty literal raises `KeyError`
in both directions instead of returning the text unchanged. -/
theorem c3_empty_map_keyerror :
    MacroProcessor.getAllRegexPatternMapping mapsC3 (toL "b.txt") false = []
    ∧ MacroProcessor.preprocess mapsC3 (toL "b.txt") (toL "x") = Except.error ()
    ∧ MacroProcessor.postprocess mapsC3 (toL "b.txt") (toL "x") = Except.error () := by
  refine ⟨by decide, ?_, ?_⟩
  · exact reSubFuel_sound 20 _ _ (by decide)
  · exact reSubFuel_sound 20 _ _ (by decide)

/-- For every path matched by no pattern with tokens, both passes raise
`KeyError` on every text (supporting generalization of the C3 bug). -/
theorem preprocess_error_of_empty_map (maps : MacroMaps) (path text : Str)
    (h : MacroProcessor.getAllRegexPatternMapping maps path false = []) :
    MacroProcessor.preprocess maps path text = Except.error () := by
  unfold MacroProcessor.preprocess
  rw [h]
  exact reSub_some_nokey rfl rfl

/-- Claim C10 (confirmed): whenever the merged escaped-token map built for a
path is non-empty, the single-pass substitution never raises: every match of
the compiled alternation is the literal text of a declared token, so the
dict lookup on the matched literal succeeds, for every input text and in
both directions. -/
theorem c10_lookup_never_fails (maps : MacroMaps) (path text : Str)
    (hf : MacroProcessor.getAllRegexPatternMapping maps path false ≠ [])
    (hr : MacroProcessor.getAllRegexPatternMapping maps path true ≠ []) :
    (∃ s, MacroProcessor.preprocess maps path text = Except.ok s)
    ∧ (∃ s, MacroProcessor.postprocess maps path text = Except.ok s) :=
  ⟨reSub_ok hf text, reSub_ok hr text⟩

/-- Witness for C10 at a concrete table, path and text. -/
theorem c10_lookup_never_fails_witness :
    (∃ s, MacroProcessor.preprocess mapsC1 (toL "x") (toL "hello") = Except.ok s)
    ∧ (∃ s, MacroProcessor.postprocess mapsC1 (toL "x") (toL "hello") = Except.ok s) :=
  c10_lookup_never_fails mapsC1 (toL "x") (toL "hello") (by decide) (by decide)

/-- Claim C8 (amended): a token declared only under patterns that do not
match the path never becomes a key of the substitution map built for that
path, so the engine never substitutes that token; and whenever the merged
map is non-empty and no in-scope token occurs anywhere in the text, the text
passes through unchanged.  The frozen claim (every occurrence of the
out-of-scope token's literal text is left unchanged) fails because an
in-scope token may match inside such an occurrence (see the
counterexample). -/
theorem c8_glob_scoping_amended (maps : MacroMaps) (path t text : Str)
    (hdecl : ∀ e ∈ maps, fnmatch path e.1 = true → t ∉ e.2.map Prod.fst) :
    t ∉ (MacroProcessor.getAllRegexPatternMapping maps path false).map Prod.fst
    ∧ (MacroProcessor.getAllRegexPatternMapping maps path false ≠ [] →
       (∀ kv ∈ MacroProcessor.getAllRegexPatternMapping maps path false,
          ¬ kv.1 <:+: text) →
       MacroProcessor.preprocess maps path text = Except.ok text) := by
  constructor
  · intro hmem
    rw [mergedFwd_keys] at hmem
    obtain ⟨p, hp, hfst⟩ := List.mem_map.mp hmem
    rw [mem_matchedDecls_iff] at hp
    obtain ⟨e, he, hf2, hpe⟩ := hp
    exact hdecl e he hf2 (hfst ▸ List.mem_map_of_mem Prod.fst hpe)
  · intro hk hno
    exact reSub_id_of_no_occurrence hk text hno

/-- Counterexample to claim C8 as frozen: token `ab` is declared only under
`*.sql`, which does not match `f.csv`; yet preprocessing the text `ab` on
`f.csv` yields `Xb`, because the in-scope token `a` (declared under `*.csv`)
matches inside the occurrence of `ab`. -/
theorem c8_counterexample :
    fnmatch (toL "f.csv") (toL "*.sql") = false
    ∧ (∀ e ∈ mapsC8, fnmatch (toL "f.csv") e.1 = true →
        toL "ab" ∉ e.2.map Prod.fst)
    ∧ MacroProcessor.preprocess mapsC8 (toL "f.csv") (toL "ab")
        = Except.ok (toL "Xb")
    ∧ (Except.ok (toL "Xb") : Except Unit Str) ≠ Except.ok (toL "ab") := by
  refine ⟨by decide, by decide, reSubFuel_sound 20 _ _ (by decide), by decide⟩

/-- Witness for C8: under `mapsC8` the token `ab` is out of scope for
`f.csv` and a text containing no in-scope token passes through unchanged. -/
theorem c8_glob_scoping_amended_witness :
    toL "ab" ∉ (MacroProcessor.getAllRegexPatternMapping mapsC8
        (toL "f.csv") false).map Prod.fst
    ∧ MacroProcessor.preprocess mapsC8 (toL "f.csv") (toL "xyz")
        = Except.ok (toL "xyz") :=
  ⟨(c8_glob_scoping_amended mapsC8 (toL "f.csv") (toL "ab") (toL "xyz")
      (by decide)).1,
   (c8_glob_scoping_amended mapsC8 (toL "f.csv") (toL "ab") (toL "xyz")
      (by decide)).2 (by decide) (by decide)⟩

/-! ## Lemmas and claim theorems for the pipeline -/

theorem foldl_bind_error {α : Type} (g : α → Str → Except Unit Str) (l : List α) :
    l.foldl (fun acc p => acc.bind (g p)) (Except.error ()) = Except.error () := by
  induction l with
  | nil => rfl
  | cons p rest ih => exact ih

theorem foldl_bind_shift {α : Type} (g : α → Str → Except Unit Str) (l : List α)
    (acc : Except Unit Str) :
    l.foldl (fun a p => a.bind (g p)) acc
      = acc.bind (fun t => l.foldl (fun a p => a.bind (g p)) (Except.ok t)) := by
  cases acc with
  | error e =>
    cases e
    rw [foldl_bind_error]
    rfl
  | ok t => rfl

theorem eq_of_path_eq_of_nodup {l : List FileEntry}
    (h : (l.map FileEntry.path).Nodup) {a b : FileEntry}
    (ha : a ∈ l) (hb : b ∈ l) (he : a.path = b.path) : a = b := by
  induction l with
  | nil => cases ha
  | cons x rest ih =>
    simp only [List.map_cons, List.nodup_cons] at h
    rcases List.mem_cons.mp ha with rfl | ha2
    · rcases List.mem_cons.mp hb with rfl | hb2
      · rfl
      · exact absurd (he ▸ List.mem_map_of_mem FileEntry.path hb2) h.1
    · rcases List.mem_cons.mp hb with rfl | hb2
      · exact absurd (he ▸ List.mem_map_of_mem FileEntry.path ha2) h.1
      · exact ih h.2 ha2 hb2

/-- Claim C5 (confirmed): preprocess threads the text through the chain head
first; postprocess starts from the empty string and applies the processors in
exact reverse chain order (the head processor runs last); and for every
dispatched file whose chain run succeeds, the final text is recorded at the
same relative path under the output root. -/
theorem c5_chain_order (p : Processor) (ps chain : List Processor) (rel t : Str)
    (entries : List FileEntry) (e : FileEntry) (txt : Str) :
    (ProcessorPipeline.preprocessText (p :: ps) rel t
      = (p.pre rel t).bind (fun u => ProcessorPipeline.preprocessText ps rel u))
    ∧ ProcessorPipeline.postprocessText [] rel = Except.ok []
    ∧ (ProcessorPipeline.postprocessText (p :: ps) rel
      = (ProcessorPipeline.postprocessText ps rel).bind (p.post rel))
    ∧ (e ∈ entries → ProcessorPipeline.is_ignored e = false →
       ProcessorPipeline.postprocessText chain e.path = Except.ok txt →
       (e.path, txt) ∈ ProcessorPipeline.postprocessWrites chain entries) := by
  refine ⟨?_, rfl, ?_, ?_⟩
  · show List.foldl _ ((Except.ok t).bind (p.pre rel)) ps = _
    rw [foldl_bind_shift (fun q => q.pre rel) ps ((Except.ok t).bind (p.pre rel))]
    rfl
  · show (p :: ps).reverse.foldl _ (Except.ok []) = _
    rw [List.reverse_cons, List.foldl_append]
    rfl
  · intro hmem hig hrun
    unfold ProcessorPipeline.postprocessWrites
    rw [List.mem_filterMap]
    refine ⟨e, ?_, ?_⟩
    · unfold ProcessorPipeline.dispatched
      rw [List.mem_filter]
      exact ⟨hmem, by rw [hig]; rfl⟩
    · rw [hrun]
      rfl

/-- Witness for C5: with the chain `[procA, procB]` the postprocess pass,
started from the empty string, applies `procB` then `procA` (yielding `ba`)
and records the result at the file's relative path. -/
theorem c5_chain_order_witness :
    (toL "f.sql", toL "ba") ∈ ProcessorPipeline.postprocessWrites [procA, procB]
      [⟨toL "f.sql", true, toL "x"⟩] :=
  (c5_chain_order procA [procB] [procA, procB] (toL "f.sql") (toL "x")
      [⟨toL "f.sql", true, toL "x"⟩] ⟨toL "f.sql", true, toL "x"⟩ (toL "ba")).2.2.2
    (by decide) (by decide) (by decide)

/-- Claim C7 (confirmed): the join loop over the dispatched tasks returns
normally exactly when every task completed without raising, and when the
first raising task (in completion order) raised `e`, the pass re-raises
`e` — there is no partial silent success.  Cancellation is not modelled:
the code never cancels a future, so dispatched tasks run to completion
regardless of the join's outcome. -/
theorem c7_join_futures {E : Type} (rs rs1 rs2 : List (Except E Unit)) (e : E) :
    (ProcessorPipeline.joinFutures rs = Except.ok ()
      ↔ ∀ r ∈ rs, r = Except.ok ())
    ∧ (rs = rs1 ++ Except.error e :: rs2 → (∀ r ∈ rs1, r = Except.ok ()) →
        ProcessorPipeline.joinFutures rs = Except.error e) := by
  constructor
  · induction rs with
    | nil => simp [ProcessorPipeline.joinFutures]
    | cons r rest ih =>
      cases r with
      | ok u =>
        cases u
        show ProcessorPipeline.joinFutures rest = Except.ok () ↔ _
        rw [ih]
        constructor
        · intro h r hr
          rcases List.mem_cons.mp hr with rfl | hr2
          · rfl
          · exact h r hr2
        · intro h r hr
          exact h r (List.mem_cons_of_mem _ hr)
      | error e2 =>
        constructor
        · intro h
          exact Except.noConfusion h
        · intro h
          exact Except.noConfusion (h (Except.error e2) (List.mem_cons_self _ _))
  · intro hrs hok
    subst hrs
    induction rs1 with
    | nil => rfl
    | cons a rest ih =>
      have ha : a = Except.ok () := hok a (List.mem_cons_self _ _)
      subst ha
      show ProcessorPipeline.joinFutures (rest ++ Except.error e :: rs2)
          = Except.error e
      exact ih (fun r hr => hok r (List.mem_cons_of_mem _ hr))

/-- Witness for C7: with completion order `[ok, error 7, ok]` the pass
re-raises the error of the first failing task. -/
theorem c7_join_futures_witness :
    ProcessorPipeline.joinFutures
        [Except.ok (), Except.error 7, Except.ok ()] = Except.error 7 :=
  (c7_join_futures [Except.ok (), Except.error 7, Except.ok ()]
      [Except.ok ()] [Except.ok ()] 7).2 rfl
    (fun r hr => List.mem_singleton.mp hr)

/-- Claim C9 (confirmed): a file that is not regular or whose name begins
with a dot is never dispatched to the worker pool, and (when relative paths
are distinct, as they are for a file tree) no output file is produced at its
relative path by the postprocess pass. -/
theorem c9_hidden_files_ignored (entries : List FileEntry) (e : FileEntry)
    (chain : List Processor) (hmem : e ∈ entries)
    (hig : ProcessorPipeline.is_ignored e = true)
    (hnd : (entries.map FileEntry.path).Nodup) :
    e ∉ ProcessorPipeline.dispatched entries
    ∧ e.path ∉ (ProcessorPipeline.postprocessWrites chain entries).map Prod.fst := by
  constructor
  · intro hd
    unfold ProcessorPipeline.dispatched at hd
    rw [List.mem_filter] at hd
    rw [hig] at hd
    cases hd.2
  · intro hw
    obtain ⟨q, hq, hqp⟩ := List.mem_map.mp hw
    unfold ProcessorPipeline.postprocessWrites at hq
    rw [List.mem_filterMap] at hq
    obtain ⟨e2, he2, hfe2⟩ := hq
    unfold ProcessorPipeline.dispatched at he2
    rw [List.mem_filter] at he2
    have he2p : e2.path = q.1 := by
      cases ho : (ProcessorPipeline.postprocessText chain e2.path).toOption with
      | none => rw [ho] at hfe2; cases hfe2
      | some t =>
        rw [ho] at hfe2
        simp only [Option.map_some'] at hfe2
        rw [← Option.some.inj hfe2]
    have hee : e = e2 :=
      eq_of_path_eq_of_nodup hnd hmem he2.1 (by rw [he2p, hqp])
    rw [← hee] at he2
    rw [hig] at he2
    cases he2.2

/-- Witness for C9: a `.gitkeep` file is not dispatched and yields no output
file. -/
theorem c9_hidden_files_ignored_witness :
    gitkeepEntry ∉ ProcessorPipeline.dispatched [gitkeepEntry]
    ∧ gitkeepEntry.path ∉ (ProcessorPipeline.postprocessWrites [procA]
        [gitkeepEntry]).map Prod.fst :=
  c9_hidden_files_ignored [gitkeepEntry] gitkeepEntry [procA]
    (by decide) (by decide) (by decide)

/-- Claim C4 (code bug): in the thread-pool pipeline
(`processors/pipeline.py`) the classifier `is_processable` correctly tags a
`.csv` file as pass-through, but `_process` never consults it: the file is
dispatched and its text is run through the processor chain, so a macro chain
rewrites its content (`${a}` becomes `1`), contradicting byte-identical
pass-through.  The sequential pipeline (`processor/pipeline.py`) implements
the intended behaviour and copies the file verbatim. -/
theorem c4_passthrough_not_enforced :
    ProcessorPipeline.is_processable csvEntry = false
    ∧ ProcessorPipeline.dispatched [csvEntry] = [csvEntry]
    ∧ ProcessorPipeline.preprocessFile [macroProcessor mapsC1] csvEntry
        = Except.ok (toL "1")
    ∧ (Except.ok (toL "1") : Except Unit Str) ≠ Except.ok csvEntry.content
    ∧ OldPipeline.process [macroProcessor mapsC1] false [csvEntry]
        = Except.ok [(toL "a.csv", toL "${a}")] := by
  refine ⟨by decide, by decide, ?_, by decide, ?_⟩
  · have hpre : MacroProcessor.preprocess mapsC1 (toL "a.csv") (toL "${a}")
        = Except.ok (toL "1") :=
      reSubFuel_sound 20 _ _ (by decide)
    exact hpre
  · rfl

/-! ## Lemmas and claim theorems for the polling loop -/

theorem waitLoop_timeout (states : Nat → BatchSqlTranslator.MigrationState)
    (len : Nat) :
    ∀ (fuel k ps : Nat), len - ps ≤ fuel →
      (∀ j, k ≤ j → 5 * (j - k) < len - ps →
        BatchSqlTranslator.isJobFinished (states j) = false) →
      BatchSqlTranslator.waitLoop states len k ps
        = BatchSqlTranslator.WaitOutcome.exited 0 := by
  intro fuel
  induction fuel with
  | zero =>
    intro k ps hf _
    rw [BatchSqlTranslator.waitLoop]
    rw [dif_neg (by omega)]
  | succ n ih =>
    intro k ps hf hno
    rw [BatchSqlTranslator.waitLoop]
    by_cases hps : ps < len
    · rw [dif_pos hps]
      have h0 : BatchSqlTranslator.isJobFinished (states k) = false :=
        hno k le_rfl (by omega)
      rw [h0]
      rw [if_neg (by simp)]
      exact ih (k + 1) (ps + 5) (by omega)
        (fun j hj hlt => hno j (by omega) (by omega))
    · rw [dif_neg hps]

theorem waitLoop_finished (states : Nat → BatchSqlTranslator.MigrationState)
    (len : Nat) :
    ∀ (fuel k ps : Nat), len - ps ≤ fuel →
      (∃ j, k ≤ j ∧ 5 * (j - k) < len - ps ∧
        BatchSqlTranslator.isJobFinished (states j) = true) →
      BatchSqlTranslator.waitLoop states len k ps
        = BatchSqlTranslator.WaitOutcome.returned := by
  intro fuel
  induction fuel with
  | zero =>
    intro k ps hf hex
    obtain ⟨j, _, hlt, _⟩ := hex
    omega
  | succ n ih =>
    intro k ps hf hex
    obtain ⟨j, hkj, hlt, hfin⟩ := hex
    have hps : ps < len := by omega
    rw [BatchSqlTranslator.waitLoop]
    rw [dif_pos hps]
    by_cases h0 : BatchSqlTranslator.isJobFinished (states k) = true
    · rw [if_pos h0]
    · rw [if_neg h0]
      have hjk : j ≠ k := fun hh => h0 (hh ▸ hfin)
      exact ih (k + 1) (ps + 5) (by omega) ⟨j, by omega, by omega, hfin⟩

/-- Claim C6 (confirmed, under the idealized clock in which every iteration
advances the wall clock by exactly the 5 seconds of `time.sleep(5)`): with
the 600-second ceiling the loop polls the remote state at most 120 times; if
no poll reports `COMPLETED` or `PAUSED`, `sys.exit()` terminates the process
with exit code 0 (no failure code) and `Pipeline.postprocess` never runs;
if some poll among the 120 reports a terminal state, the loop returns and
postprocess runs. -/
theorem c6_polling_ceiling (states : Nat → BatchSqlTranslator.MigrationState) :
    ((∀ j, j < 120 → BatchSqlTranslator.isJobFinished (states j) = false) →
      BatchSqlTranslator.startTranslation states
        = ⟨true, false, BatchSqlTranslator.WaitOutcome.exited 0⟩)
    ∧ (∀ j, j < 120 → BatchSqlTranslator.isJobFinished (states j) = true →
        (BatchSqlTranslator.startTranslation states).postprocessRan = true
        ∧ (BatchSqlTranslator.startTranslation states).outcome
          = BatchSqlTranslator.WaitOutcome.returned) := by
  constructor
  · intro h
    unfold BatchSqlTranslator.startTranslation BatchSqlTranslator.waitUntilJobFinished
    rw [waitLoop_timeout states 600 600 0 0 (by omega)
      (fun j hj hlt => h j (by omega))]
  · intro j hj hfin
    unfold BatchSqlTranslator.startTranslation BatchSqlTranslator.waitUntilJobFinished
    rw [waitLoop_finished states 600 600 0 0 (by omega)
      ⟨j, Nat.zero_le j, by omega, hfin⟩]
    exact ⟨rfl, rfl⟩

/-- Witness for C6: a job that is forever `RUNNING` produces a clean exit
with no postprocess; a job `COMPLETED` at the first poll returns and
postprocess runs. -/
theorem c6_polling_ceiling_witness :
    BatchSqlTranslator.startTranslation
        (fun _ => BatchSqlTranslator.MigrationState.running)
      = ⟨true, false, BatchSqlTranslator.WaitOutcome.exited 0⟩
    ∧ (BatchSqlTranslator.startTranslation
        (fun _ => BatchSqlTranslator.MigrationState.completed)).postprocessRan
      = true :=
  ⟨(c6_polling_ceiling (fun _ => BatchSqlTranslator.MigrationState.running)).1
      (fun j hj => rfl),
   ((c6_polling_ceiling (fun _ => BatchSqlTranslator.MigrationState.completed)).2
      0 (by omega) rfl).1⟩
